import Mathlib

/-!
Shallow embedding of `src/regex-matcher/src/lib.rs`.

Rust strings are modelled as `List Char` (a `char` in Rust is a Unicode
scalar value, as is Lean's `Char`).  The source advances through strings
with the byte slice `&s[1..]` (and `&regexp[2..]`), which panics when the
byte index is not a UTF-8 character boundary; a panic is modelled as the
`none` result of an `Option Bool`.  `&s[1..]` on a non-empty string whose
first character occupies one byte drops that character; when the first
character is wider the index falls inside it and the slice panics.
`&regexp[2..]` (used when the second character is `*`) drops two one-byte
characters, or — when the first character is two bytes wide — only the
first character, or panics when the first character is three or four
bytes wide.
-/

namespace book

/-- The loop body of `book::match_star`, with the continuation
`k = match_here(regexp, ·)` abstracted as a function so that the loop is
structurally recursive on the text.  Mirrors the source loop: first try
the continuation at the current text (`match_here(regexp, text)`), then
`break false` when the text is empty or its head matches neither `.` nor
the starred character, otherwise advance one byte (`text = &text[1..]`,
a panic — `none` — when the head is not one byte wide). -/
def matchStarAux (k : List Char → Option Bool) (starred : Char) : List Char → Option Bool
  | [] =>
    match k [] with
    | none => none
    | some true => some true
    | some false => some false
  | d :: ts =>
    match k (d :: ts) with
    | none => none
    | some true => some true
    | some false =>
      if starred = '.' ∨ d = starred then
        if d.utf8Size = 1 then matchStarAux k starred ts else none
      else some false

/-- The unanchored loop of `book::match_regexp`, with
`k = match_here(regexp, ·)` abstracted: try the current text, return
false once the text is empty, otherwise `text = &text[1..]`. -/
def matchLoopAux (k : List Char → Option Bool) : List Char → Option Bool
  | [] =>
    match k [] with
    | none => none
    | some true => some true
    | some false => some false
  | d :: ts =>
    match k (d :: ts) with
    | none => none
    | some true => some true
    | some false => if d.utf8Size = 1 then matchLoopAux k ts else none

/-- `book::match_here`.  Case order follows the source: empty pattern;
second character `*` (then `match_star(first char, &regexp[2..], text)`);
pattern exactly `"$"`; one-character consume (`&regexp[1..]`,
`&text[1..]`); otherwise false. -/
def match_here : List Char → List Char → Option Bool
  | [], _ => some true
  | c :: '*' :: rest, t =>
    if c.utf8Size = 1 then matchStarAux (fun t2 => match_here rest t2) c t
    else if c.utf8Size = 2 then matchStarAux (fun t2 => match_here ('*' :: rest) t2) c t
    else none
  | ['$'], t => some t.isEmpty
  | c :: rest, t =>
    match t with
    | [] => some false
    | d :: ts =>
      if c = '.' ∨ c = d then
        if c.utf8Size = 1 ∧ d.utf8Size = 1 then match_here rest ts else none
      else some false
termination_by r _ => r.length
decreasing_by all_goals simp_wf <;> omega

/-- `book::match_star`, with the continuation pattern held as a string as
in the source. -/
def match_star (starred : Char) (regexp : List Char) (text : List Char) : Option Bool :=
  matchStarAux (fun t2 => match_here regexp t2) starred text

/-- `book::match_regexp`: strip a leading `^` and match at the start,
otherwise slide over every suffix of the text. -/
def match_regexp (regexp : List Char) (text : List Char) : Option Bool :=
  match regexp with
  | '^' :: rest => match_here rest text
  | _ => matchLoopAux (fun t2 => match_here regexp t2) text

end book

namespace rs

/-- `rs::parse::Single`. -/
inductive Single where
  | any : Single
  | literal (c : Char) : Single
deriving DecidableEq

/-- `impl From<char> for Single`. -/
def Single.ofChar (c : Char) : Single :=
  if c = '.' then Single.any else Single.literal c

/-- `rs::parse::Token`.  The source's `Token::End` is named `stop` here
(`end` is a Lean keyword). -/
inductive Token where
  | single (s : Single) : Token
  | start : Token
  | stop : Token
  | zeroOrMore (s : Single) : Token
deriving DecidableEq

/-- `rs::parse::Tokens::next`, materialised over the whole pattern: `^`
and `$` map to anchors before the one-character `*` lookahead is
consulted; a character followed by `*` consumes both. -/
def tokenize : List Char → List Token
  | [] => []
  | '^' :: rest => Token.start :: tokenize rest
  | '$' :: rest => Token.stop :: tokenize rest
  | c :: '*' :: rest => Token.zeroOrMore (Single.ofChar c) :: tokenize rest
  | c :: rest => Token.single (Single.ofChar c) :: tokenize rest

/-- `rs::Matcher::match_here`.  The matcher state is the remaining token
list (the source's cloneable `Peekable` iterator).  `Token::Start`
reached here is the source's `panic!` (modelled as `none`); text
advancement is the byte slice `&text[1..]` (`none` when the head
character is wider than one byte). -/
def match_here : List Token → List Char → Option Bool
  | [], _ => some true
  | Token.zeroOrMore _ :: rest, t => matchStarAux (fun t2 => match_here rest t2) t
  | Token.stop :: _, t => some t.isEmpty
  | Token.single Single.any :: rest, t =>
    match t with
    | [] => some false
    | d :: ts => if d.utf8Size = 1 then match_here rest ts else none
  | Token.single (Single.literal c) :: rest, t =>
    match t with
    | [] => some false
    | d :: ts =>
      if c = d then
        if d.utf8Size = 1 then match_here rest ts else none
      else some false
  | Token.start :: _, _ => none
where
  /-- The loop of `rs::Matcher::match_star` with the continuation
  abstracted.  Note the source never consults the repeated kind `c`:
  after the continuation fails it consumes any character. -/
  matchStarAux (k : List Char → Option Bool) : List Char → Option Bool
    | [] =>
      match k [] with
      | none => none
      | some true => some true
      | some false => some false
    | d :: ts =>
      match k (d :: ts) with
      | none => none
      | some true => some true
      | some false => if d.utf8Size = 1 then matchStarAux k ts else none

/-- `rs::Matcher::match_star`: the matcher state `toks` is the token list
after the `ZeroOrMore` token has been consumed; the repeated kind `c` is
an argument the body never uses, exactly as in the source. -/
def match_star (toks : List Token) (c : Single) (text : List Char) : Option Bool :=
  match_here.matchStarAux (fun t2 => match_here toks t2) text

/-- `rs::Matcher::match_rest`: try `match_here` on a clone, return false
on empty text, otherwise recurse on `&text[1..]`. -/
def match_rest (toks : List Token) : List Char → Option Bool
  | [] =>
    match match_here toks [] with
    | none => none
    | some true => some true
    | some false => some false
  | d :: ts =>
    match match_here toks (d :: ts) with
    | none => none
    | some true => some true
    | some false => if d.utf8Size = 1 then match_rest toks ts else none

/-- `rs::Matcher::is_match`: when the first token is `Start`, skip it and
match at the start of the text; otherwise slide via `match_rest`. -/
def is_match (toks : List Token) (text : List Char) : Option Bool :=
  match toks with
  | Token.start :: rest => match_here rest text
  | _ => match_rest toks text

/-- `rs::match_regexp`. -/
def match_regexp (regexp : List Char) (text : List Char) : Option Bool :=
  is_match (tokenize regexp) text

end rs

/-! ## Specification-side predicates -/

/-- Every character of the string occupies a single UTF-8 byte, so the
source's byte slices `&s[1..]` coincide with dropping one character. -/
def asciiStr (s : List Char) : Prop := ∀ c ∈ s, c.utf8Size = 1

/-- `^` occurs at most as the very first character of the pattern. -/
def caretOnlyFirst (p : List Char) : Prop := '^' ∉ p.drop 1

/-- The token list contains no `Start` token. -/
def noStart (toks : List rs.Token) : Prop := rs.Token.start ∉ toks

instance (s : List Char) : Decidable (asciiStr s) := by
  unfold asciiStr; infer_instance

instance (p : List Char) : Decidable (caretOnlyFirst p) := by
  unfold caretOnlyFirst; infer_instance

instance (toks : List rs.Token) : Decidable (noStart toks) := by
  unfold noStart; infer_instance

/-! ## The pattern class on which the two implementations agree

`rs::match_star` never consults the repeated kind, so a starred literal
behaves like `.*` in `rs`; and misplaced anchors are treated as literals
by `book` but as anchor tokens by `rs`.  The class below therefore
requires `^` only first, `$` only last, and `.` as the only starred
atom. -/

/-- Body of an agreeable pattern (after an optional leading `^`): no
further `^`, `$` only as the final character, and every `*`-pair has `.`
as its atom. -/
def okBody : List Char → Bool
  | [] => true
  | [c] => if c = '^' then false else true
  | c :: c2 :: rest =>
    if c = '^' then false
    else if c = '$' then false
    else if c2 = '*' then c = '.' && okBody rest
    else okBody (c2 :: rest)

/-- An agreeable pattern: an optional leading `^` followed by an
agreeable body. -/
def okPattern : List Char → Bool
  | '^' :: rest => okBody rest
  | r => okBody r

/-! ## Empty-text behaviour -/

/-- Characterisation (from the code) of the single-byte patterns whose
`book::match_here` accepts the empty text: a sequence of `*`-pairs
followed by nothing or by a final `$`. -/
def starPairsThenOptEnd : List Char → Bool
  | [] => true
  | [c] => c = '$'
  | _ :: c2 :: rest => if c2 = '*' then starPairsThenOptEnd rest else false

/-- Strip the leading `^` of a pattern, when present. -/
def dropCaret : List Char → List Char
  | '^' :: rest => rest
  | r => r

/-! ## Empty-text behaviour of rs -/

/-- Result of `rs::Matcher::match_here` on the empty text, read off the
code: leading `ZeroOrMore` tokens are skipped, an `End` token (or token
exhaustion) accepts, a `Single` rejects, and a `Start` panics. -/
def emptyTokAccept : List rs.Token → Option Bool
  | [] => some true
  | rs.Token.stop :: _ => some true
  | rs.Token.zeroOrMore _ :: rest => emptyTokAccept rest
  | rs.Token.single _ :: _ => some false
  | rs.Token.start :: _ => none

/-- Strip a leading `Start` token, as `rs::Matcher::is_match` does. -/
def dropLeadStart : List rs.Token → List rs.Token
  | rs.Token.start :: rest => rest
  | toks => toks

/-! ## Fuel-indexed interpreters

Each constructor call of the fuel versions below performs exactly one
recursive step of the corresponding source procedure, so the statement
"fuel linear in pattern length plus text length suffices" is the
termination claim: along every recursive path each step consumes a
pattern symbol or a text character.  The outer `Option` is fuel
exhaustion; the inner `Option Bool` is the result (with `none` a
panic, as before). -/

mutual
def bookHereF : Nat → List Char → List Char → Option (Option Bool)
  | 0, _, _ => none
  | n + 1, r, t =>
    match r with
    | [] => some (some true)
    | c :: '*' :: rest =>
      if c.utf8Size = 1 then bookStarF n c rest t
      else if c.utf8Size = 2 then bookStarF n c ('*' :: rest) t
      else some none
    | ['$'] => some (some t.isEmpty)
    | c :: rest =>
      match t with
      | [] => some (some false)
      | d :: ts =>
        if c = '.' ∨ c = d then
          if c.utf8Size = 1 ∧ d.utf8Size = 1 then bookHereF n rest ts else some none
        else some (some false)

def bookStarF : Nat → Char → List Char → List Char → Option (Option Bool)
  | 0, _, _, _ => none
  | n + 1, s, r, t =>
    match bookHereF n r t with
    | none => none
    | some none => some none
    | some (some true) => some (some true)
    | some (some false) =>
      match t with
      | [] => some (some false)
      | d :: ts =>
        if s = '.' ∨ d = s then
          if d.utf8Size = 1 then bookStarF n s r ts else some none
        else some (some false)
end

def bookLoopF : Nat → List Char → List Char → Option (Option Bool)
  | 0, _, _ => none
  | n + 1, r, t =>
    match bookHereF n r t with
    | none => none
    | some none => some none
    | some (some true) => some (some true)
    | some (some false) =>
      match t with
      | [] => some (some false)
      | d :: ts => if d.utf8Size = 1 then bookLoopF n r ts else some none

def bookRegexpF (n : Nat) (r t : List Char) : Option (Option Bool) :=
  match r with
  | '^' :: rest => bookHereF n rest t
  | _ => bookLoopF n r t

mutual
def rsHereF : Nat → List rs.Token → List Char → Option (Option Bool)
  | 0, _, _ => none
  | n + 1, toks, t =>
    match toks with
    | [] => some (some true)
    | rs.Token.zeroOrMore _ :: rest => rsStarF n rest t
    | rs.Token.stop :: _ => some (some t.isEmpty)
    | rs.Token.single rs.Single.any :: rest =>
      match t with
      | [] => some (some false)
      | d :: ts => if d.utf8Size = 1 then rsHereF n rest ts else some none
    | rs.Token.single (rs.Single.literal c) :: rest =>
      match t with
      | [] => some (some false)
      | d :: ts =>
        if c = d then
          if d.utf8Size = 1 then rsHereF n rest ts else some none
        else some (some false)
    | rs.Token.start :: _ => some none

def rsStarF : Nat → List rs.Token → List Char → Option (Option Bool)
  | 0, _, _ => none
  | n + 1, toks, t =>
    match rsHereF n toks t with
    | none => none
    | some none => some none
    | some (some true) => some (some true)
    | some (some false) =>
      match t with
      | [] => some (some false)
      | d :: ts => if d.utf8Size = 1 then rsStarF n toks ts else some none
end

def rsRestF : Nat → List rs.Token → List Char → Option (Option Bool)
  | 0, _, _ => none
  | n + 1, toks, t =>
    match rsHereF n toks t with
    | none => none
    | some none => some none
    | some (some true) => some (some true)
    | some (some false) =>
      match t with
      | [] => some (some false)
      | d :: ts => if d.utf8Size = 1 then rsRestF n toks ts else some none

def rsIsMatchF (n : Nat) (toks : List rs.Token) (t : List Char) : Option (Option Bool) :=
  match toks with
  | rs.Token.start :: rest => rsHereF n rest t
  | _ => rsRestF n toks t

def rsRegexpF (n : Nat) (r t : List Char) : Option (Option Bool) :=
  rsIsMatchF n (rs.tokenize r) t

/-! ## Claim-side definitions -/

/-- A pattern consisting solely of star repetitions (pairs of an atom
followed by `*`), written from the words of claim C6. -/
def starPairsOnly : List Char → Bool
  | [] => true
  | _ :: '*' :: rest => starPairsOnly rest
  | _ => false

/-- The right-hand side of claim C6, written from the claim: the pattern
is empty, consists solely of the anchors `^` and `$`, or consists solely
of star pairs. -/
def claimC6Rhs (p : List Char) : Prop :=
  p = [] ∨ (∀ c ∈ p, c = '^' ∨ c = '$') ∨ starPairsOnly p = true

instance (p : List Char) : Decidable (claimC6Rhs p) := by
  unfold claimC6Rhs; infer_instance

/-! ## Panic-freedom helpers -/

theorem asciiStr_cons {d : Char} {ts : List Char} (h : asciiStr (d :: ts)) :
    d.utf8Size = 1 ∧ asciiStr ts := by
  refine ⟨h d (List.mem_cons_self d ts), fun c hc => h c (List.mem_cons_of_mem d hc)⟩

theorem book.matchStarAux_isSome (k : List Char → Option Bool) (s : Char)
    (t : List Char) (ht : asciiStr t)
    (hk : ∀ u, asciiStr u → (k u).isSome = true) :
    (book.matchStarAux k s t).isSome = true := by
  induction t with
  | nil =>
    have h0 := hk [] (by intro c hc; cases hc)
    unfold book.matchStarAux
    cases hkv : k [] with
    | none => rw [hkv] at h0; cases h0
    | some b => cases b <;> simp
  | cons d ts ih =>
    obtain ⟨hd, hts⟩ := asciiStr_cons ht
    have h0 := hk (d :: ts) ht
    unfold book.matchStarAux
    cases hkv : k (d :: ts) with
    | none => rw [hkv] at h0; cases h0
    | some b =>
      cases b with
      | true => simp
      | false =>
        simp only
        by_cases hcond : s = '.' ∨ d = s
        · rw [if_pos hcond, if_pos hd]
          exact ih hts
        · rw [if_neg hcond]
          simp

theorem book.matchLoopAux_isSome (k : List Char → Option Bool)
    (t : List Char) (ht : asciiStr t)
    (hk : ∀ u, asciiStr u → (k u).isSome = true) :
    (book.matchLoopAux k t).isSome = true := by
  induction t with
  | nil =>
    have h0 := hk [] (by intro c hc; cases hc)
    unfold book.matchLoopAux
    cases hkv : k [] with
    | none => rw [hkv] at h0; cases h0
    | some b => cases b <;> simp
  | cons d ts ih =>
    obtain ⟨hd, hts⟩ := asciiStr_cons ht
    have h0 := hk (d :: ts) ht
    unfold book.matchLoopAux
    cases hkv : k (d :: ts) with
    | none => rw [hkv] at h0; cases h0
    | some b =>
      cases b with
      | true => simp
      | false =>
        simp only
        rw [if_pos hd]
        exact ih hts

theorem book.match_here_isSome : ∀ r t : List Char, asciiStr r → asciiStr t →
    (book.match_here r t).isSome = true := by
  intro r t
  induction r, t using book.match_here.induct with
  | case1 x => intro _ _; simp [book.match_here.eq_1]
  | case2 c rest t h1 ih =>
    intro hr ht
    obtain ⟨hc, hrest'⟩ := asciiStr_cons hr
    obtain ⟨_, hrest⟩ := asciiStr_cons hrest'
    rw [book.match_here.eq_2, if_pos h1]
    exact book.matchStarAux_isSome _ c t ht fun u hu => ih u hrest hu
  | case3 c rest t h1 h2 ih =>
    intro hr _
    obtain ⟨hc, _⟩ := asciiStr_cons hr
    exact absurd hc h1
  | case4 c rest t h1 h2 =>
    intro hr _
    obtain ⟨hc, _⟩ := asciiStr_cons hr
    exact absurd hc h1
  | case5 t => intro _ _; simp [book.match_here.eq_3]
  | case6 c rest hne hsh =>
    intro _ _
    rw [book.match_here.eq_4 c rest hne hsh]
    simp
  | case7 c rest hne hsh d ts hcond hsz ih =>
    intro hr ht
    obtain ⟨hc, hrest⟩ := asciiStr_cons hr
    obtain ⟨hd, hts⟩ := asciiStr_cons ht
    rw [book.match_here.eq_5 c rest d ts hne hsh, if_pos hcond, if_pos hsz]
    exact ih hrest hts
  | case8 c rest hne hsh d ts hcond hsz =>
    intro hr ht
    obtain ⟨hc, hrest⟩ := asciiStr_cons hr
    obtain ⟨hd, hts⟩ := asciiStr_cons ht
    exact absurd ⟨hc, hd⟩ hsz
  | case9 c rest hne hsh d ts hcond =>
    intro _ _
    rw [book.match_here.eq_5 c rest d ts hne hsh, if_neg hcond]
    simp

theorem book.match_star_isSome (s : Char) (r t : List Char)
    (hr : asciiStr r) (ht : asciiStr t) :
    (book.match_star s r t).isSome = true :=
  book.matchStarAux_isSome _ s t ht fun u hu => book.match_here_isSome r u hr hu

theorem book.match_regexp_isSome (r t : List Char) (hr : asciiStr r) (ht : asciiStr t) :
    (book.match_regexp r t).isSome = true := by
  unfold book.match_regexp
  split
  · next rest =>
    have hrest : asciiStr rest := (asciiStr_cons hr).2
    exact book.match_here_isSome rest t hrest ht
  · exact book.matchLoopAux_isSome _ t ht fun u hu => book.match_here_isSome r u hr hu

theorem noStart_cons {x : rs.Token} {rest : List rs.Token}
    (h : noStart (x :: rest)) : x ≠ rs.Token.start ∧ noStart rest := by
  constructor
  · intro hx; exact h (hx ▸ List.mem_cons_self x rest)
  · intro hm; exact h (List.mem_cons_of_mem x hm)

theorem rsMatchStarAux_isSome (k : List Char → Option Bool)
    (t : List Char) (ht : asciiStr t)
    (hk : ∀ u, asciiStr u → (k u).isSome = true) :
    (rs.match_here.matchStarAux k t).isSome = true := by
  induction t with
  | nil =>
    have h0 := hk [] (by intro c hc; cases hc)
    unfold rs.match_here.matchStarAux
    cases hkv : k [] with
    | none => rw [hkv] at h0; cases h0
    | some b => cases b <;> simp
  | cons d ts ih =>
    obtain ⟨hd, hts⟩ := asciiStr_cons ht
    have h0 := hk (d :: ts) ht
    unfold rs.match_here.matchStarAux
    cases hkv : k (d :: ts) with
    | none => rw [hkv] at h0; cases h0
    | some b =>
      cases b with
      | true => simp
      | false =>
        simp only
        rw [if_pos hd]
        exact ih hts

theorem rsMatchHere_isSome : ∀ (toks : List rs.Token) (t : List Char),
    noStart toks → asciiStr t → (rs.match_here toks t).isSome = true := by
  intro toks t
  induction toks, t using rs.match_here.induct with
  | case1 x => intro _ _; simp [rs.match_here]
  | case2 s rest t ih =>
    intro hn ht
    have hrest : noStart rest := (noStart_cons hn).2
    rw [rs.match_here]
    exact rsMatchStarAux_isSome _ t ht fun u hu => ih u hrest hu
  | case3 tail t => intro _ _; simp [rs.match_here]
  | case4 rest => intro _ _; rfl
  | case5 rest d ts hd ih =>
    intro hn ht
    rw [rs.match_here]
    rw [if_pos hd]
    exact ih (noStart_cons hn).2 (asciiStr_cons ht).2
  | case6 rest d ts hd =>
    intro _ ht
    exact absurd (asciiStr_cons ht).1 hd
  | case7 c rest => intro _ _; rfl
  | case8 rest d ts hd ih =>
    intro hn ht
    rw [rs.match_here]
    simp only
    rw [if_pos True.intro, if_pos hd]
    exact ih (noStart_cons hn).2 (asciiStr_cons ht).2
  | case9 rest d ts hd =>
    intro _ ht
    exact absurd (asciiStr_cons ht).1 hd
  | case10 c rest d ts hcd =>
    intro _ _
    rw [rs.match_here]
    rw [if_neg hcd]
    simp
  | case11 tail x =>
    intro hn _
    exact absurd rfl (noStart_cons hn).1

theorem rs.match_rest_isSome (toks : List rs.Token) (t : List Char)
    (hn : noStart toks) (ht : asciiStr t) :
    (rs.match_rest toks t).isSome = true := by
  induction t with
  | nil =>
    have h0 := rsMatchHere_isSome toks [] hn (by intro c hc; cases hc)
    unfold rs.match_rest
    cases hkv : rs.match_here toks [] with
    | none => rw [hkv] at h0; cases h0
    | some b => cases b <;> simp
  | cons d ts ih =>
    obtain ⟨hd, hts⟩ := asciiStr_cons ht
    have h0 := rsMatchHere_isSome toks (d :: ts) hn ht
    unfold rs.match_rest
    cases hkv : rs.match_here toks (d :: ts) with
    | none => rw [hkv] at h0; cases h0
    | some b =>
      cases b with
      | true => simp
      | false =>
        simp only
        rw [if_pos hd]
        exact ih hts

/-- The tokenizer emits `Start` exactly for `^` characters. -/
theorem rs.tokenize_noStart : ∀ p : List Char, '^' ∉ p → noStart (rs.tokenize p) := by
  intro p
  induction p using rs.tokenize.induct with
  | case1 => intro _ hm; cases hm
  | case2 rest ih =>
    intro h
    exact absurd (List.mem_cons_self '^' rest) h
  | case3 rest ih =>
    intro h hm
    rw [rs.tokenize.eq_3] at hm
    rcases List.mem_cons.mp hm with h1 | h2
    · cases h1
    · exact ih (fun hc => h (List.mem_cons_of_mem '$' hc)) h2
  | case4 c rest hc1 hc2 ih =>
    intro h hm
    rw [rs.tokenize.eq_4 c rest hc1 hc2] at hm
    rcases List.mem_cons.mp hm with h1 | h2
    · cases h1
    · exact ih (fun hc => h (List.mem_cons_of_mem c (List.mem_cons_of_mem '*' hc))) h2
  | case5 c rest hc1 hc2 hrest ih =>
    intro h hm
    rw [rs.tokenize.eq_5 c rest hc1 hc2 hrest] at hm
    rcases List.mem_cons.mp hm with h1 | h2
    · cases h1
    · exact ih (fun hc => h (List.mem_cons_of_mem c hc)) h2

theorem rs.is_match_isSome (toks : List rs.Token) (t : List Char)
    (hn : noStart toks) (ht : asciiStr t) :
    (rs.is_match toks t).isSome = true := by
  cases toks with
  | nil => exact rs.match_rest_isSome [] t hn ht
  | cons x rest =>
    cases x with
    | start => exact absurd rfl (noStart_cons hn).1
    | single s => exact rs.match_rest_isSome _ t hn ht
    | stop => exact rs.match_rest_isSome _ t hn ht
    | zeroOrMore s => exact rs.match_rest_isSome _ t hn ht

theorem rsMatchRegexp_isSome (r t : List Char)
    (hr : caretOnlyFirst r) (ht : asciiStr t) :
    (rs.match_regexp r t).isSome = true := by
  unfold rs.match_regexp
  cases r with
  | nil => exact rs.is_match_isSome [] t (by intro hm; cases hm) ht
  | cons c rest =>
    by_cases hc : c = '^'
    · subst hc
      rw [rs.tokenize.eq_2]
      show (rs.match_here (rs.tokenize rest) t).isSome = true
      exact rsMatchHere_isSome _ t (rs.tokenize_noStart rest hr) ht
    · have hnot : '^' ∉ (c :: rest) := by
        intro hm
        rcases List.mem_cons.mp hm with h1 | h2
        · exact hc h1.symm
        · exact hr h2
      exact rs.is_match_isSome _ t (rs.tokenize_noStart _ hnot) ht

theorem starAux_eq (k k' : List Char → Option Bool)
    (hkk : ∀ u, asciiStr u → k u = k' u) :
    ∀ t, asciiStr t → book.matchStarAux k '.' t = rs.match_here.matchStarAux k' t := by
  intro t
  induction t with
  | nil =>
    intro ht
    unfold book.matchStarAux rs.match_here.matchStarAux
    rw [hkk [] ht]
  | cons d ts ih =>
    intro ht
    obtain ⟨hd, hts⟩ := asciiStr_cons ht
    unfold book.matchStarAux rs.match_here.matchStarAux
    rw [hkk (d :: ts) ht]
    cases k' (d :: ts) with
    | none => rfl
    | some b =>
      cases b with
      | true => rfl
      | false =>
        simp only
        rw [if_pos (Or.inl True.intro), if_pos hd, if_pos hd]
        exact ih hts

theorem rs.match_here_single_nil (s : rs.Single) (rest : List rs.Token) :
    rs.match_here (rs.Token.single s :: rest) [] = some false := by
  cases s <;> rfl

theorem hereEqAux : ∀ (n : Nat) (r : List Char), r.length ≤ n →
    asciiStr r → okBody r = true → ∀ t, asciiStr t →
    book.match_here r t = rs.match_here (rs.tokenize r) t := by
  intro n
  induction n with
  | zero =>
    intro r hle _ _ t _
    have hr : r = [] := List.eq_nil_of_length_eq_zero (Nat.le_zero.mp hle)
    subst hr
    rw [book.match_here.eq_1]
    rfl
  | succ n ih =>
    intro r hle hr hok t ht
    cases r with
    | nil => rw [book.match_here.eq_1]; rfl
    | cons c rest =>
      by_cases hc1 : c = '^'
      · subst hc1
        cases rest with
        | nil => simp [okBody] at hok
        | cons c2 rest2 => simp [okBody] at hok
      · by_cases hc2 : c = '$'
        · subst hc2
          cases rest with
          | nil =>
            rw [book.match_here.eq_3, rs.tokenize.eq_3]
            rfl
          | cons c2 rest2 => simp [okBody, hc1] at hok
        · cases rest with
          | nil =>
            have hne : ∀ rest_1 : List Char, ([] : List Char) = '*' :: rest_1 → False := by
              intro r1 h; cases h
            have hsh : c = '$' → ([] : List Char) = [] → False := fun h _ => hc2 h
            have htok : rs.tokenize [c] = [rs.Token.single (rs.Single.ofChar c)] :=
              rs.tokenize.eq_5 c [] (fun h => hc1 h) (fun h => hc2 h) hne
            rw [htok]
            cases t with
            | nil =>
              rw [book.match_here.eq_4 c [] hne hsh]
              exact (rs.match_here_single_nil _ _).symm
            | cons d ts =>
              obtain ⟨hd, hts⟩ := asciiStr_cons ht
              obtain ⟨hc, _⟩ := asciiStr_cons hr
              rw [book.match_here.eq_5 c [] d ts hne hsh]
              by_cases hdot : c = '.'
              · subst hdot
                rw [if_pos (Or.inl rfl), if_pos ⟨hc, hd⟩]
                have : rs.Single.ofChar '.' = rs.Single.any := by
                  simp [rs.Single.ofChar]
                rw [this]
                show book.match_here [] ts = if d.utf8Size = 1 then rs.match_here [] ts else none
                rw [if_pos hd, book.match_here.eq_1]
                rfl
              · have : rs.Single.ofChar c = rs.Single.literal c := by
                  simp [rs.Single.ofChar, hdot]
                rw [this]
                show _ = if c = d then (if d.utf8Size = 1 then rs.match_here (rs.tokenize []) ts else none) else some false
                by_cases hcd : c = d
                · rw [if_pos (Or.inr hcd), if_pos ⟨hc, hd⟩, if_pos hcd, if_pos hd,
                    book.match_here.eq_1]
                  rfl
                · rw [if_neg (by rintro (h | h) <;> [exact hdot h; exact hcd h]), if_neg hcd]
          | cons c2 rest2 =>
            by_cases hstar : c2 = '*'
            · subst hstar
              have hok' : c = '.' ∧ okBody rest2 = true := by
                simp only [okBody, if_neg hc1, if_neg hc2, if_true, Bool.and_eq_true,
                  decide_eq_true_eq] at hok
                exact hok
              obtain ⟨hdot, hok2⟩ := hok'
              subst hdot
              have htok : rs.tokenize ('.' :: '*' :: rest2) =
                  rs.Token.zeroOrMore (rs.Single.ofChar '.') :: rs.tokenize rest2 :=
                rs.tokenize.eq_4 '.' rest2 (fun h => hc1 h) (fun h => hc2 h)
              rw [book.match_here.eq_2, htok]
              have hofc : rs.Single.ofChar '.' = rs.Single.any := by simp [rs.Single.ofChar]
              rw [hofc]
              rw [if_pos (by decide : ('.' : Char).utf8Size = 1)]
              show book.matchStarAux (fun t2 => book.match_here rest2 t2) '.' t =
                rs.match_here.matchStarAux (fun t2 => rs.match_here (rs.tokenize rest2) t2) t
              have hrest2 : asciiStr rest2 := by
                intro x hx
                exact hr x (List.mem_cons_of_mem '.' (List.mem_cons_of_mem '*' hx))
              refine starAux_eq _ _ (fun u hu => ?_) t ht
              exact ih rest2 (by simp at hle; omega) hrest2 hok2 u hu
            · have hne : ∀ rest_1 : List Char, c2 :: rest2 = '*' :: rest_1 → False := by
                intro r1 h; injection h with h1 _; exact hstar h1
              have hsh : c = '$' → c2 :: rest2 = [] → False := fun h _ => hc2 h
              have htok : rs.tokenize (c :: c2 :: rest2) =
                  rs.Token.single (rs.Single.ofChar c) :: rs.tokenize (c2 :: rest2) :=
                rs.tokenize.eq_5 c (c2 :: rest2) (fun h => hc1 h) (fun h => hc2 h) hne
              rw [htok]
              have hok2 : okBody (c2 :: rest2) = true := by
                simp only [okBody, if_neg hc1, if_neg hc2, if_neg hstar] at hok
                exact hok
              have hrest : asciiStr (c2 :: rest2) := (asciiStr_cons hr).2
              have hlen : (c2 :: rest2).length ≤ n := by simp at hle ⊢; omega
              cases t with
              | nil =>
                rw [book.match_here.eq_4 c (c2 :: rest2) hne hsh]
                exact (rs.match_here_single_nil _ _).symm
              | cons d ts =>
                obtain ⟨hd, hts⟩ := asciiStr_cons ht
                obtain ⟨hc, _⟩ := asciiStr_cons hr
                rw [book.match_here.eq_5 c (c2 :: rest2) d ts hne hsh]
                by_cases hdot : c = '.'
                · subst hdot
                  rw [if_pos (Or.inl rfl), if_pos ⟨hc, hd⟩]
                  have : rs.Single.ofChar '.' = rs.Single.any := by simp [rs.Single.ofChar]
                  rw [this]
                  show book.match_here (c2 :: rest2) ts =
                    if d.utf8Size = 1 then rs.match_here (rs.tokenize (c2 :: rest2)) ts else none
                  rw [if_pos hd]
                  exact ih (c2 :: rest2) hlen hrest hok2 ts hts
                · have : rs.Single.ofChar c = rs.Single.literal c := by
                    simp [rs.Single.ofChar, hdot]
                  rw [this]
                  show _ = if c = d then
                      (if d.utf8Size = 1 then rs.match_here (rs.tokenize (c2 :: rest2)) ts else none)
                    else some false
                  by_cases hcd : c = d
                  · rw [if_pos (Or.inr hcd), if_pos ⟨hc, hd⟩, if_pos hcd, if_pos hd]
                    exact ih (c2 :: rest2) hlen hrest hok2 ts hts
                  · rw [if_neg (by rintro (h | h) <;> [exact hdot h; exact hcd h]), if_neg hcd]

theorem hereEq (r : List Char) (hr : asciiStr r) (hok : okBody r = true)
    (t : List Char) (ht : asciiStr t) :
    book.match_here r t = rs.match_here (rs.tokenize r) t :=
  hereEqAux r.length r le_rfl hr hok t ht

theorem restEq (r : List Char) (toks : List rs.Token)
    (heq : ∀ u, asciiStr u → book.match_here r u = rs.match_here toks u) :
    ∀ t, asciiStr t → book.matchLoopAux (fun t2 => book.match_here r t2) t = rs.match_rest toks t := by
  intro t
  induction t with
  | nil =>
    intro ht
    unfold book.matchLoopAux rs.match_rest
    rw [heq [] ht]
  | cons d ts ih =>
    intro ht
    obtain ⟨hd, hts⟩ := asciiStr_cons ht
    unfold book.matchLoopAux rs.match_rest
    rw [heq (d :: ts) ht]
    cases rs.match_here toks (d :: ts) with
    | none => rfl
    | some b =>
      cases b with
      | true => rfl
      | false =>
        simp only
        rw [if_pos hd, if_pos hd]
        exact ih hts

/-- Agreeable pattern bodies contain no `^` at all. -/
theorem okBody_no_caret : ∀ p : List Char, okBody p = true → '^' ∉ p := by
  intro p
  induction p using okBody.induct with
  | case1 => intro _ hm; cases hm
  | case2 => intro h; simp [okBody] at h
  | case3 c hc =>
    intro h hm
    rcases List.mem_cons.mp hm with h1 | h2
    · exact hc h1.symm
    · cases h2
  | case4 c2 rest => intro h; simp [okBody] at h
  | case5 c2 rest h0 => intro h; simp [okBody] at h
  | case6 c rest hc1 hc2 ih =>
    intro h hm
    have h' : okBody rest = true := by
      simp only [okBody, if_neg hc1, if_neg hc2, if_true, Bool.and_eq_true] at h
      exact h.2
    rcases List.mem_cons.mp hm with h1 | h2
    · exact hc1 h1.symm
    · rcases List.mem_cons.mp h2 with h3 | h4
      · cases h3
      · exact ih h' h4
  | case7 c c2 rest hc1 hc2 hc3 ih =>
    intro h hm
    have h' : okBody (c2 :: rest) = true := by
      simp only [okBody, if_neg hc1, if_neg hc2, if_neg hc3] at h
      exact h
    rcases List.mem_cons.mp hm with h1 | h2
    · exact hc1 h1.symm
    · exact ih h' h2

theorem rs.is_match_eq_match_rest (toks : List rs.Token)
    (h : toks.head? ≠ some rs.Token.start) (t : List Char) :
    rs.is_match toks t = rs.match_rest toks t := by
  cases toks with
  | nil => rfl
  | cons x rest =>
    cases x with
    | start => exact absurd rfl h
    | single s => rfl
    | stop => rfl
    | zeroOrMore s => rfl

/-- Head token of the tokenization of a pattern not beginning with `^`. -/
theorem rs.tokenize_head_ne_start (c : Char) (rest : List Char) (hc : c ≠ '^') :
    (rs.tokenize (c :: rest)).head? ≠ some rs.Token.start := by
  by_cases hd : c = '$'
  · subst hd
    rw [rs.tokenize.eq_3]
    intro h
    cases h
  · cases rest with
    | nil =>
      rw [rs.tokenize.eq_5 c [] (fun h => hc h) (fun h => hd h) (fun r1 h => by cases h)]
      intro h
      cases h
    | cons c2 rest2 =>
      by_cases hst : c2 = '*'
      · subst hst
        rw [rs.tokenize.eq_4 c rest2 (fun h => hc h) (fun h => hd h)]
        intro h
        cases h
      · rw [rs.tokenize.eq_5 c (c2 :: rest2) (fun h => hc h) (fun h => hd h)
          (fun r1 h => by injection h with h1 _; exact hst h1)]
        intro h
        cases h

/-- The two implementations agree on agreeable single-byte patterns. -/
theorem regexpEq (r t : List Char) (hok : okPattern r = true)
    (hr : asciiStr r) (ht : asciiStr t) :
    book.match_regexp r t = rs.match_regexp r t := by
  cases r with
  | nil =>
    show book.matchLoopAux (fun t2 => book.match_here [] t2) t = rs.match_rest [] t
    exact restEq [] [] (fun u _ => by rw [book.match_here.eq_1]; rfl) t ht
  | cons c rest =>
    by_cases hc : c = '^'
    · subst hc
      show book.match_here rest t = rs.match_regexp ('^' :: rest) t
      unfold rs.match_regexp
      rw [rs.tokenize.eq_2]
      show book.match_here rest t = rs.match_here (rs.tokenize rest) t
      exact hereEq rest (asciiStr_cons hr).2 (by rw [okPattern.eq_1] at hok; exact hok) t ht
    · have hne : ∀ rest_1 : List Char, c :: rest = '^' :: rest_1 → False := by
        intro r1 h; injection h with h1 _; exact hc h1
      have hokb : okBody (c :: rest) = true := by rw [okPattern.eq_2 _ hne] at hok; exact hok
      rw [book.match_regexp.eq_2 _ _ hne]
      unfold rs.match_regexp
      rw [rs.is_match_eq_match_rest _ (rs.tokenize_head_ne_start c rest hc) t]
      exact restEq (c :: rest) (rs.tokenize (c :: rest))
        (fun u hu => hereEq (c :: rest) hr hokb u hu) t ht

theorem book.matchStarAux_nil (k : List Char → Option Bool) (s : Char) (b : Bool)
    (hk : k [] = some b) : book.matchStarAux k s [] = some b := by
  unfold book.matchStarAux
  rw [hk]
  cases b <;> rfl

theorem bookHereNilAux : ∀ (n : Nat) (r : List Char), r.length ≤ n → asciiStr r →
    book.match_here r [] = some (starPairsThenOptEnd r) := by
  intro n
  induction n with
  | zero =>
    intro r hle _
    have hr : r = [] := List.eq_nil_of_length_eq_zero (Nat.le_zero.mp hle)
    subst hr
    rw [book.match_here.eq_1]
    rfl
  | succ n ih =>
    intro r hle hr
    cases r with
    | nil => rw [book.match_here.eq_1]; rfl
    | cons c rest =>
      cases rest with
      | nil =>
        by_cases hc : c = '$'
        · subst hc
          rw [book.match_here.eq_3]
          rfl
        · rw [book.match_here.eq_4 c [] (fun r1 h => by cases h) (fun h _ => hc h)]
          show some false = some (decide (c = '$'))
          rw [decide_eq_false hc]
      | cons c2 rest2 =>
        by_cases hst : c2 = '*'
        · subst hst
          obtain ⟨hc, hrest'⟩ := asciiStr_cons hr
          obtain ⟨_, hrest2⟩ := asciiStr_cons hrest'
          rw [book.match_here.eq_2, if_pos hc]
          have hrec : book.match_here rest2 [] = some (starPairsThenOptEnd rest2) :=
            ih rest2 (by simp at hle; omega) hrest2
          rw [book.matchStarAux_nil _ c _ hrec]
          show some (starPairsThenOptEnd rest2) = some (starPairsThenOptEnd (c :: '*' :: rest2))
          have : starPairsThenOptEnd (c :: '*' :: rest2) = starPairsThenOptEnd rest2 := by
            show (if '*' = '*' then starPairsThenOptEnd rest2 else false) = _
            rw [if_pos rfl]
          rw [this]
        · have hne : ∀ rest_1 : List Char, c2 :: rest2 = '*' :: rest_1 → False := by
            intro r1 h; injection h with h1 _; exact hst h1
          rw [book.match_here.eq_4 c (c2 :: rest2) hne (fun _ h => by cases h)]
          show some false = some (starPairsThenOptEnd (c :: c2 :: rest2))
          have : starPairsThenOptEnd (c :: c2 :: rest2) = false := by
            show (if c2 = '*' then starPairsThenOptEnd rest2 else false) = false
            rw [if_neg hst]
          rw [this]

theorem bookHereNil (r : List Char) (hr : asciiStr r) :
    book.match_here r [] = some (starPairsThenOptEnd r) :=
  bookHereNilAux r.length r le_rfl hr

theorem bookEmptyText (p : List Char) (hp : asciiStr p) :
    book.match_regexp p [] = some (starPairsThenOptEnd (dropCaret p)) := by
  cases p with
  | nil =>
    show book.matchLoopAux (fun t2 => book.match_here [] t2) [] = some true
    unfold book.matchLoopAux
    rw [book.match_here.eq_1]
  | cons c rest =>
    by_cases hc : c = '^'
    · subst hc
      rw [book.match_regexp.eq_1]
      exact bookHereNil rest (asciiStr_cons hp).2
    · have hne : ∀ rest_1 : List Char, c :: rest = '^' :: rest_1 → False := by
        intro r1 h; injection h with h1 _; exact hc h1
      rw [book.match_regexp.eq_2 _ _ hne]
      have hdc : dropCaret (c :: rest) = c :: rest := dropCaret.eq_2 _ hne
      rw [hdc]
      unfold book.matchLoopAux
      rw [bookHereNil (c :: rest) hp]
      cases hsp : starPairsThenOptEnd (c :: rest) <;> rfl

/-! ## The unanchored sliding loop as an existential -/

theorem loopAux_true_iff (k : List Char → Option Bool) :
    ∀ t, asciiStr t → (∀ u, asciiStr u → (k u).isSome = true) →
      (book.matchLoopAux k t = some true ↔
        ∃ i, i ≤ t.length ∧ k (t.drop i) = some true) := by
  intro t
  induction t with
  | nil =>
    intro ht hk
    have h0 := hk [] ht
    unfold book.matchLoopAux
    cases hkv : k [] with
    | none => rw [hkv] at h0; cases h0
    | some b =>
      cases b with
      | true =>
        exact ⟨fun _ => ⟨0, le_rfl, hkv⟩, fun _ => rfl⟩
      | false =>
        simp only
        constructor
        · intro h; cases h
        · rintro ⟨i, hi, hki⟩
          have : i = 0 := Nat.le_zero.mp hi
          subst this
          rw [List.drop_zero] at hki
          rw [hkv] at hki
          cases hki
  | cons d ts ih =>
    intro ht hk
    obtain ⟨hd, hts⟩ := asciiStr_cons ht
    unfold book.matchLoopAux
    cases hkv : k (d :: ts) with
    | none =>
      have h0 := hk (d :: ts) ht
      rw [hkv] at h0; cases h0
    | some b =>
      cases b with
      | true =>
        exact ⟨fun _ => ⟨0, Nat.zero_le _, hkv⟩, fun _ => rfl⟩
      | false =>
        simp only
        rw [if_pos hd]
        rw [ih hts hk]
        constructor
        · rintro ⟨i, hi, hki⟩
          exact ⟨i + 1, by simp; omega, hki⟩
        · rintro ⟨i, hi, hki⟩
          cases i with
          | zero =>
            rw [List.drop_zero] at hki
            rw [hkv] at hki
            cases hki
          | succ j =>
            exact ⟨j, by simp at hi; omega, hki⟩

theorem match_rest_true_iff (toks : List rs.Token) :
    ∀ t, asciiStr t → noStart toks →
      (rs.match_rest toks t = some true ↔
        ∃ i, i ≤ t.length ∧ rs.match_here toks (t.drop i) = some true) := by
  intro t
  induction t with
  | nil =>
    intro ht hn
    have h0 := rsMatchHere_isSome toks [] hn ht
    unfold rs.match_rest
    cases hkv : rs.match_here toks [] with
    | none => rw [hkv] at h0; cases h0
    | some b =>
      cases b with
      | true =>
        exact ⟨fun _ => ⟨0, le_rfl, hkv⟩, fun _ => rfl⟩
      | false =>
        simp only
        constructor
        · intro h; cases h
        · rintro ⟨i, hi, hki⟩
          have : i = 0 := Nat.le_zero.mp hi
          subst this
          rw [List.drop_zero] at hki
          rw [hkv] at hki
          cases hki
  | cons d ts ih =>
    intro ht hn
    obtain ⟨hd, hts⟩ := asciiStr_cons ht
    unfold rs.match_rest
    cases hkv : rs.match_here toks (d :: ts) with
    | none =>
      have h0 := rsMatchHere_isSome toks (d :: ts) hn ht
      rw [hkv] at h0; cases h0
    | some b =>
      cases b with
      | true =>
        exact ⟨fun _ => ⟨0, Nat.zero_le _, hkv⟩, fun _ => rfl⟩
      | false =>
        simp only
        rw [if_pos hd]
        rw [ih hts hn]
        constructor
        · rintro ⟨i, hi, hki⟩
          exact ⟨i + 1, by simp; omega, hki⟩
        · rintro ⟨i, hi, hki⟩
          cases i with
          | zero =>
            rw [List.drop_zero] at hki
            rw [hkv] at hki
            cases hki
          | succ j =>
            exact ⟨j, by simp at hi; omega, hki⟩

theorem bookFuelAux : ∀ n : Nat,
    (∀ r t : List Char, 2 * (r.length + t.length) < n →
      bookHereF n r t = some (book.match_here r t)) ∧
    (∀ (s : Char) (r t : List Char), 2 * (r.length + t.length) + 1 < n →
      bookStarF n s r t = some (book.match_star s r t)) ∧
    (∀ r t : List Char, 2 * (r.length + t.length) + 1 < n →
      bookLoopF n r t = some (book.matchLoopAux (fun t2 => book.match_here r t2) t)) := by
  intro n
  induction n with
  | zero =>
    refine ⟨fun r t h => absurd h (by omega), fun s r t h => absurd h (by omega),
      fun r t h => absurd h (by omega)⟩
  | succ n ih =>
    obtain ⟨ihH, ihS, ihL⟩ := ih
    refine ⟨?_, ?_, ?_⟩
    · intro r t hb
      cases r with
      | nil => rw [bookHereF.eq_2, book.match_here.eq_1]
      | cons c rest =>
        cases rest with
        | nil =>
          by_cases hc : c = '$'
          · subst hc
            rw [bookHereF.eq_4, book.match_here.eq_3]
          · have hne : ∀ rest_1 : List Char, ([] : List Char) = '*' :: rest_1 → False := by
              intro r1 h; cases h
            have hsh : c = '$' → ([] : List Char) = [] → False := fun h _ => hc h
            cases t with
            | nil => rw [bookHereF.eq_5 n c [] hne hsh, book.match_here.eq_4 c [] hne hsh]
            | cons d ts =>
              rw [bookHereF.eq_6 n c [] d ts hne hsh, book.match_here.eq_5 c [] d ts hne hsh]
              by_cases hcond : c = '.' ∨ c = d
              · rw [if_pos hcond, if_pos hcond]
                by_cases hsz : c.utf8Size = 1 ∧ d.utf8Size = 1
                · rw [if_pos hsz, if_pos hsz]
                  exact ihH [] ts (by simp at hb ⊢; omega)
                · rw [if_neg hsz, if_neg hsz]
              · rw [if_neg hcond, if_neg hcond]
        | cons c2 rest2 =>
          by_cases hst : c2 = '*'
          · subst hst
            rw [bookHereF.eq_3, book.match_here.eq_2]
            have hlb : 2 * (rest2.length + t.length) + 1 < n := by simp at hb; omega
            have hlb2 : 2 * (('*' :: rest2).length + t.length) + 1 < n := by
              simp at hb ⊢; omega
            by_cases h1 : c.utf8Size = 1
            · rw [if_pos h1, if_pos h1, ihS c rest2 t hlb]
              rfl
            · rw [if_neg h1, if_neg h1]
              by_cases h2 : c.utf8Size = 2
              · rw [if_pos h2, if_pos h2, ihS c ('*' :: rest2) t hlb2]
                rfl
              · rw [if_neg h2, if_neg h2]
          · have hne : ∀ rest_1 : List Char, c2 :: rest2 = '*' :: rest_1 → False := by
              intro r1 h; injection h with h1 _; exact hst h1
            have hsh : c = '$' → c2 :: rest2 = [] → False := by
              intro _ h; cases h
            cases t with
            | nil =>
              rw [bookHereF.eq_5 n c (c2 :: rest2) hne hsh,
                book.match_here.eq_4 c (c2 :: rest2) hne hsh]
            | cons d ts =>
              rw [bookHereF.eq_6 n c (c2 :: rest2) d ts hne hsh,
                book.match_here.eq_5 c (c2 :: rest2) d ts hne hsh]
              by_cases hcond : c = '.' ∨ c = d
              · rw [if_pos hcond, if_pos hcond]
                by_cases hsz : c.utf8Size = 1 ∧ d.utf8Size = 1
                · rw [if_pos hsz, if_pos hsz]
                  exact ihH (c2 :: rest2) ts (by simp at hb ⊢; omega)
                · rw [if_neg hsz, if_neg hsz]
              · rw [if_neg hcond, if_neg hcond]
    · intro s r t hb
      unfold book.match_star
      cases t with
      | nil =>
        rw [bookStarF.eq_2, ihH r [] (by simp at hb ⊢; omega)]
        unfold book.matchStarAux
        cases book.match_here r [] with
        | none => rfl
        | some b => cases b <;> rfl
      | cons d ts =>
        rw [bookStarF.eq_3, ihH r (d :: ts) (by omega)]
        unfold book.matchStarAux
        cases book.match_here r (d :: ts) with
        | none => rfl
        | some b =>
          cases b with
          | true => rfl
          | false =>
            simp only
            by_cases hcond : s = '.' ∨ d = s
            · rw [if_pos hcond, if_pos hcond]
              by_cases hsz : d.utf8Size = 1
              · rw [if_pos hsz, if_pos hsz, ihS s r ts (by simp at hb ⊢; omega)]
                rfl
              · rw [if_neg hsz, if_neg hsz]
            · rw [if_neg hcond, if_neg hcond]
    · intro r t hb
      cases t with
      | nil =>
        rw [bookLoopF.eq_2, ihH r [] (by simp at hb ⊢; omega)]
        unfold book.matchLoopAux
        cases book.match_here r [] with
        | none => rfl
        | some b => cases b <;> rfl
      | cons d ts =>
        rw [bookLoopF.eq_3, ihH r (d :: ts) (by omega)]
        unfold book.matchLoopAux
        cases book.match_here r (d :: ts) with
        | none => rfl
        | some b =>
          cases b with
          | true => rfl
          | false =>
            simp only
            by_cases hsz : d.utf8Size = 1
            · rw [if_pos hsz, if_pos hsz, ihL r ts (by simp at hb ⊢; omega)]
            · rw [if_neg hsz, if_neg hsz]

theorem bookRegexpF_eq (n : Nat) (r t : List Char)
    (hb : 2 * (r.length + t.length) + 2 < n) :
    bookRegexpF n r t = some (book.match_regexp r t) := by
  obtain ⟨ihH, ihS, ihL⟩ := bookFuelAux n
  cases r with
  | nil =>
    show bookLoopF n [] t = _
    rw [book.match_regexp.eq_2 [] t (fun r1 h => by cases h)]
    exact ihL [] t (by simp at hb ⊢; omega)
  | cons c rest =>
    by_cases hc : c = '^'
    · subst hc
      show bookHereF n rest t = _
      rw [book.match_regexp.eq_1]
      exact ihH rest t (by simp at hb; omega)
    · have hne : ∀ rest_1 : List Char, c :: rest = '^' :: rest_1 → False := by
        intro r1 h; injection h with h1 _; exact hc h1
      have h1 : bookRegexpF n (c :: rest) t = bookLoopF n (c :: rest) t := by
        unfold bookRegexpF
        split
        · next h => exact (hne _ h).elim
        · rfl
      rw [h1, book.match_regexp.eq_2 _ t hne]
      exact ihL (c :: rest) t (by omega)

theorem rsFuelAux : ∀ n : Nat,
    (∀ (toks : List rs.Token) (t : List Char), 2 * (toks.length + t.length) < n →
      rsHereF n toks t = some (rs.match_here toks t)) ∧
    (∀ (toks : List rs.Token) (t : List Char), 2 * (toks.length + t.length) + 1 < n →
      rsStarF n toks t =
        some (rs.match_here.matchStarAux (fun t2 => rs.match_here toks t2) t)) ∧
    (∀ (toks : List rs.Token) (t : List Char), 2 * (toks.length + t.length) + 1 < n →
      rsRestF n toks t = some (rs.match_rest toks t)) := by
  intro n
  induction n with
  | zero =>
    refine ⟨fun toks t h => absurd h (by omega), fun toks t h => absurd h (by omega),
      fun toks t h => absurd h (by omega)⟩
  | succ n ih =>
    obtain ⟨ihH, ihS, ihR⟩ := ih
    refine ⟨?_, ?_, ?_⟩
    · intro toks t hb
      cases toks with
      | nil => rw [rsHereF.eq_2]; rfl
      | cons x rest =>
        cases x with
        | zeroOrMore s =>
          rw [rsHereF.eq_3]
          exact ihS rest t (by simp at hb ⊢; omega)
        | stop => rw [rsHereF.eq_4]; rfl
        | start => rw [rsHereF.eq_9]; rfl
        | single s =>
          cases s with
          | any =>
            cases t with
            | nil => rw [rsHereF.eq_5]; rfl
            | cons d ts =>
              rw [rsHereF.eq_6]
              show _ = some (if d.utf8Size = 1 then rs.match_here rest ts else none)
              by_cases hsz : d.utf8Size = 1
              · rw [if_pos hsz, if_pos hsz]
                exact ihH rest ts (by simp at hb ⊢; omega)
              · rw [if_neg hsz, if_neg hsz]
          | literal c =>
            cases t with
            | nil => rw [rsHereF.eq_7]; rfl
            | cons d ts =>
              rw [rsHereF.eq_8]
              show _ = some (if c = d then
                  (if d.utf8Size = 1 then rs.match_here rest ts else none)
                else some false)
              by_cases hcd : c = d
              · rw [if_pos hcd, if_pos hcd]
                by_cases hsz : d.utf8Size = 1
                · rw [if_pos hsz, if_pos hsz]
                  exact ihH rest ts (by simp at hb ⊢; omega)
                · rw [if_neg hsz, if_neg hsz]
              · rw [if_neg hcd, if_neg hcd]
    · intro toks t hb
      cases t with
      | nil =>
        rw [rsStarF.eq_2, ihH toks [] (by simp at hb ⊢; omega)]
        unfold rs.match_here.matchStarAux
        cases rs.match_here toks [] with
        | none => rfl
        | some b => cases b <;> rfl
      | cons d ts =>
        rw [rsStarF.eq_3, ihH toks (d :: ts) (by omega)]
        unfold rs.match_here.matchStarAux
        cases rs.match_here toks (d :: ts) with
        | none => rfl
        | some b =>
          cases b with
          | true => rfl
          | false =>
            simp only
            by_cases hsz : d.utf8Size = 1
            · rw [if_pos hsz, if_pos hsz, ihS toks ts (by simp at hb ⊢; omega)]
            · rw [if_neg hsz, if_neg hsz]
    · intro toks t hb
      cases t with
      | nil =>
        rw [rsRestF.eq_2, ihH toks [] (by simp at hb ⊢; omega)]
        unfold rs.match_rest
        cases rs.match_here toks [] with
        | none => rfl
        | some b => cases b <;> rfl
      | cons d ts =>
        rw [rsRestF.eq_3, ihH toks (d :: ts) (by omega)]
        unfold rs.match_rest
        cases rs.match_here toks (d :: ts) with
        | none => rfl
        | some b =>
          cases b with
          | true => rfl
          | false =>
            simp only
            by_cases hsz : d.utf8Size = 1
            · rw [if_pos hsz, if_pos hsz, ihR toks ts (by simp at hb ⊢; omega)]
            · rw [if_neg hsz, if_neg hsz]

theorem rsIsMatchF_eq (n : Nat) (toks : List rs.Token) (t : List Char)
    (hb : 2 * (toks.length + t.length) + 2 < n) :
    rsIsMatchF n toks t = some (rs.is_match toks t) := by
  obtain ⟨ihH, ihS, ihR⟩ := rsFuelAux n
  cases toks with
  | nil => exact ihR [] t (by simp at hb ⊢; omega)
  | cons x rest =>
    cases x with
    | start => exact ihH rest t (by simp at hb; omega)
    | single s => exact ihR _ t (by omega)
    | stop => exact ihR _ t (by omega)
    | zeroOrMore s => exact ihR _ t (by omega)

theorem rsRegexpF_eq (n : Nat) (r t : List Char)
    (hb : 2 * ((rs.tokenize r).length + t.length) + 2 < n) :
    rsRegexpF n r t = some (rs.match_regexp r t) :=
  rsIsMatchF_eq n (rs.tokenize r) t hb

theorem rsHereNil : ∀ toks : List rs.Token, rs.match_here toks [] = emptyTokAccept toks := by
  intro toks
  induction toks with
  | nil => rfl
  | cons x rest ih =>
    cases x with
    | start => rfl
    | stop => rfl
    | single s => exact rs.match_here_single_nil s rest
    | zeroOrMore s =>
      show rs.match_here.matchStarAux (fun t2 => rs.match_here rest t2) [] = emptyTokAccept rest
      unfold rs.match_here.matchStarAux
      rw [ih]
      cases emptyTokAccept rest with
      | none => rfl
      | some b => cases b <;> rfl

theorem rsEmptyText : ∀ p : List Char,
    rs.match_regexp p [] = emptyTokAccept (dropLeadStart (rs.tokenize p)) := by
  intro p
  unfold rs.match_regexp
  cases htk : rs.tokenize p with
  | nil => rfl
  | cons x rest =>
    cases x with
    | start =>
      show rs.match_here rest [] = emptyTokAccept rest
      exact rsHereNil rest
    | single s =>
      show rs.match_rest (rs.Token.single s :: rest) [] = _
      unfold rs.match_rest
      rw [rs.match_here_single_nil s rest]
      rfl
    | stop =>
      show rs.match_rest (rs.Token.stop :: rest) [] = _
      unfold rs.match_rest
      rfl
    | zeroOrMore s =>
      show rs.match_rest (rs.Token.zeroOrMore s :: rest) [] = emptyTokAccept rest
      unfold rs.match_rest
      rw [rsHereNil]
      show (match emptyTokAccept rest with
        | none => none
        | some true => some true
        | some false => some false) = emptyTokAccept rest
      cases emptyTokAccept rest with
      | none => rfl
      | some b => cases b <;> rfl

/-! ## Claims -/

/-- C1, counterexample: the pattern `$a` has `$` in a non-final position,
yet neither implementation panics on it: both return booleans (and
different ones). -/
theorem c1_counterexample :
    book.match_regexp ['$', 'a'] ['z'] = some false ∧
    rs.match_regexp ['$', 'a'] ['z'] = some true := by
  constructor
  · simp +decide [book.match_regexp, book.matchLoopAux, book.match_here]
  · decide

/-- C1, amended: a non-final `$` never causes a panic.  For every
single-byte pattern containing `$` in a non-final position and every
single-byte text, `book::match_regexp` returns a boolean (book treats
the `$` as a literal), and `rs::match_regexp` returns a boolean provided
`^` occurs only as the first character (rs evaluates the `End` token as
an end-of-text test wherever it occurs).  The `^` proviso is necessary
and unrelated to `$`: the only fatal panic in either implementation is
rs's `Start`-token panic for a non-initial `^`, which the non-final-`$`
pattern `a^$b` on text `ab` triggers. -/
theorem c1_amended :
    (∀ p t : List Char, '$' ∈ p.dropLast → asciiStr p → asciiStr t →
      (book.match_regexp p t).isSome = true) ∧
    (∀ p t : List Char, '$' ∈ p.dropLast → caretOnlyFirst p → asciiStr t →
      (rs.match_regexp p t).isSome = true) ∧
    rs.match_regexp ['a', '^', '$', 'b'] ['a', 'b'] = none :=
  ⟨fun p t _ hp ht => book.match_regexp_isSome p t hp ht,
    fun p t _ hc ht => rsMatchRegexp_isSome p t hc ht,
    by decide⟩

/-- C1, witness for the amended theorem at the concrete non-final-`$`
pattern `$a` and text `z`. -/
theorem c1_witness :
    ('$' ∈ (['$', 'a'] : List Char).dropLast ∧ asciiStr ['$', 'a'] ∧ asciiStr ['z'] ∧
      (book.match_regexp ['$', 'a'] ['z']).isSome = true) ∧
    (caretOnlyFirst ['$', 'a'] ∧ (rs.match_regexp ['$', 'a'] ['z']).isSome = true) :=
  ⟨⟨by decide, by decide, by decide,
      c1_amended.1 ['$', 'a'] ['z'] (by decide) (by decide) (by decide)⟩,
    by decide, c1_amended.2.1 ['$', 'a'] ['z'] (by decide) (by decide) (by decide)⟩

/-- C2, counterexample: on the pattern `$a` (built from the five
supported operators) and the empty text the two implementations return
different booleans. -/
theorem c2_counterexample :
    book.match_regexp ['$', 'a'] [] = some false ∧
    rs.match_regexp ['$', 'a'] [] = some true := by
  constructor
  · simp +decide [book.match_regexp, book.matchLoopAux, book.match_here]
  · decide

/-- C2, amended: the implementations agree on every single-byte pattern
in which `^` occurs only first, `$` only last, and every starred atom is
`.` — in general they diverge (see the counterexample, and `^a*b` for
the starred-literal divergence). -/
theorem c2_amended : ∀ r t : List Char, okPattern r = true →
    asciiStr r → asciiStr t → book.match_regexp r t = rs.match_regexp r t :=
  fun r t hok hr ht => regexpEq r t hok hr ht

/-- C2, witness for the amended theorem on pattern `^ab`, text `ab`. -/
theorem c2_witness :
    okPattern ['^', 'a', 'b'] = true ∧ asciiStr ['^', 'a', 'b'] ∧ asciiStr ['a', 'b'] ∧
    book.match_regexp ['^', 'a', 'b'] ['a', 'b'] = rs.match_regexp ['^', 'a', 'b'] ['a', 'b'] :=
  ⟨by decide, by decide, by decide,
    c2_amended ['^', 'a', 'b'] ['a', 'b'] (by decide) (by decide) (by decide)⟩

/-- C3, counterexample: `rs::Matcher::match_star` consumes a character
even when it does not match the repeated kind.  With repeated kind
`Literal a`, continuation `Literal b` and text `xb`, the continuation
fails and the head `x` matches neither `.` nor `a`, so the claim demands
`false`; rs consumes `x` anyway and returns `true` (book returns
`false`). -/
theorem c3_counterexample :
    rs.match_star [rs.Token.single (rs.Single.literal 'b')]
      (rs.Single.literal 'a') ['x', 'b'] = some true ∧
    book.match_star 'a' ['b'] ['x', 'b'] = some false := by
  constructor
  · decide
  · simp +decide [book.match_star, book.matchStarAux, book.match_here]

/-- C3, amended: the zero-repetitions-first order holds for both
procedures, but only `book::match_star` guards the grow step by the
repeated kind; `rs::Matcher::match_star` consumes any character once the
continuation has failed.  Both unfold equations are stated exactly. -/
theorem c3_amended :
    (∀ (s : Char) (r t : List Char),
      book.match_star s r t =
        match book.match_here r t with
        | none => none
        | some true => some true
        | some false =>
          match t with
          | [] => some false
          | d :: ts =>
            if s = '.' ∨ d = s then
              if d.utf8Size = 1 then book.match_star s r ts else none
            else some false) ∧
    (∀ (toks : List rs.Token) (c : rs.Single) (t : List Char),
      rs.match_star toks c t =
        match rs.match_here toks t with
        | none => none
        | some true => some true
        | some false =>
          match t with
          | [] => some false
          | d :: ts => if d.utf8Size = 1 then rs.match_star toks c ts else none) := by
  constructor
  · intro s r t
    cases t with
    | nil =>
      show book.matchStarAux (fun t2 => book.match_here r t2) s [] = _
      unfold book.matchStarAux
      cases book.match_here r [] with
      | none => rfl
      | some b => cases b <;> rfl
    | cons d ts =>
      show book.matchStarAux (fun t2 => book.match_here r t2) s (d :: ts) = _
      unfold book.matchStarAux
      cases book.match_here r (d :: ts) with
      | none => rfl
      | some b => cases b <;> rfl
  · intro toks c t
    cases t with
    | nil =>
      show rs.match_here.matchStarAux (fun t2 => rs.match_here toks t2) [] = _
      unfold rs.match_here.matchStarAux
      cases rs.match_here toks [] with
      | none => rfl
      | some b => cases b <;> rfl
    | cons d ts =>
      show rs.match_here.matchStarAux (fun t2 => rs.match_here toks t2) (d :: ts) = _
      unfold rs.match_here.matchStarAux
      cases rs.match_here toks (d :: ts) with
      | none => rfl
      | some b => cases b <;> rfl

/-- C4: both implementations panic on multi-byte text characters, because
they advance the text by the byte slice `text[1..]` after comparing
characters: pattern `.` against text `é` panics in both, contradicting
the documented "matches any single character" and the spec's
never-panics guarantee. -/
theorem c4_theorem :
    book.match_regexp ['.'] ['é'] = none ∧ rs.match_regexp ['.'] ['é'] = none := by
  constructor
  · simp +decide [book.match_regexp, book.matchLoopAux, book.match_here]
  · decide

/-- C5, counterexample: `book` does not raise any fatal condition for a
non-initial `^`: on pattern `a^` and text `a^` matching reaches the `^`,
which is matched as an ordinary literal, and the call returns `true`. -/
theorem c5_counterexample :
    book.match_regexp ['a', '^'] ['a', '^'] = some true := by
  simp +decide [book.match_regexp, book.matchLoopAux, book.match_here]

/-- C5, amended: only the rs implementation faults on a non-initial `^`
(a `Start` token reached by `match_here` is a panic, for every
continuation and text); `book` treats a non-initial `^` as an ordinary
literal atom (or as a starred atom when followed by `*`). -/
theorem c5_amended :
    (∀ (toks : List rs.Token) (t : List Char),
      rs.match_here (rs.Token.start :: toks) t = none) ∧
    (∀ (c2 : Char) (rest : List Char) (d : Char) (ts : List Char),
      book.match_here ('^' :: c2 :: rest) (d :: ts) =
        if c2 = '*' then book.match_star '^' rest (d :: ts)
        else if d = '^' then book.match_here (c2 :: rest) ts else some false) ∧
    (∀ (d : Char) (ts : List Char),
      book.match_here ['^'] (d :: ts) = if d = '^' then some true else some false) := by
  refine ⟨fun toks t => rfl, ?_, ?_⟩
  · intro c2 rest d ts
    by_cases hst : c2 = '*'
    · subst hst
      rw [book.match_here.eq_2, if_pos (by decide), if_pos rfl]
      rfl
    · have hne : ∀ rest_1 : List Char, c2 :: rest = '*' :: rest_1 → False := by
        intro r1 h; injection h with h1 _; exact hst h1
      have hsh : '^' = '$' → c2 :: rest = [] → False := fun h _ => absurd h (by decide)
      rw [book.match_here.eq_5 '^' (c2 :: rest) d ts hne hsh, if_neg hst]
      by_cases hd : d = '^'
      · rw [if_pos (Or.inr hd.symm), if_pos ⟨by decide, by rw [hd]; decide⟩, if_pos hd]
      · rw [if_neg ?_, if_neg hd]
        rintro (h | h)
        · exact absurd h (by decide)
        · exact hd h.symm
  · intro d ts
    have hne : ∀ rest_1 : List Char, ([] : List Char) = '*' :: rest_1 → False := by
      intro r1 h; cases h
    have hsh : '^' = '$' → ([] : List Char) = [] → False := fun h _ => absurd h (by decide)
    rw [book.match_here.eq_5 '^' [] d ts hne hsh]
    by_cases hd : d = '^'
    · rw [if_pos (Or.inr hd.symm), if_pos ⟨by decide, by rw [hd]; decide⟩, if_pos hd,
        book.match_here.eq_1]
    · rw [if_neg ?_, if_neg hd]
      rintro (h | h)
      · exact absurd h (by decide)
      · exact hd h.symm

/-- C6, counterexample: `a*$`, a star pair followed by a final `$`, is
none of the claim's three cases, yet both implementations match it
against the empty text. -/
theorem c6_counterexample :
    book.match_regexp ['a', '*', '$'] [] = some true ∧
    rs.match_regexp ['a', '*', '$'] [] = some true ∧
    ¬ claimC6Rhs ['a', '*', '$'] := by
  refine ⟨?_, by decide, by decide⟩
  simp +decide [book.match_regexp, book.matchLoopAux, book.match_here,
    book.matchStarAux]

/-- C6, amended: on the empty text, `book::match_regexp` accepts exactly
the patterns made of an optional leading `^`, then star pairs, then an
optional final `$` (for single-byte patterns); `rs::match_regexp`
accepts exactly the token lists that, after an optional leading `Start`,
consist of `ZeroOrMore` tokens followed by nothing or by an `End` token
(panicking on a further `Start`, accepting regardless of what follows
the `End` — whence divergences such as `$$`). -/
theorem c6_amended :
    (∀ p, asciiStr p →
      book.match_regexp p [] = some (starPairsThenOptEnd (dropCaret p))) ∧
    (∀ p, rs.match_regexp p [] = emptyTokAccept (dropLeadStart (rs.tokenize p))) :=
  ⟨bookEmptyText, rsEmptyText⟩

/-- C6, witness for the amended theorem at the concrete pattern `b*`. -/
theorem c6_witness :
    asciiStr ['b', '*'] ∧
    book.match_regexp ['b', '*'] [] = some (starPairsThenOptEnd (dropCaret ['b', '*'])) ∧
    rs.match_regexp ['b', '*'] [] = emptyTokAccept (dropLeadStart (rs.tokenize ['b', '*'])) :=
  ⟨by decide, c6_amended.1 ['b', '*'] (by decide), c6_amended.2 ['b', '*']⟩

/-- C7, counterexample: with the multi-byte text `éa` and pattern `a`,
some suffix of the text matches the pattern, yet `book::match_regexp`
does not return `true` — the byte slice panics first — so the claimed
equivalence fails without a single-byte restriction. -/
theorem c7_counterexample :
    book.match_regexp ['a'] ['é', 'a'] = none ∧
    book.match_here ['a'] (List.drop 1 ['é', 'a']) = some true ∧
    1 ≤ (['é', 'a'] : List Char).length := by
  refine ⟨?_, ?_, by decide⟩
  · simp +decide [book.match_regexp, book.matchLoopAux, book.match_here]
  · simp +decide [book.match_here]

/-- C7, amended: on single-byte input the top-level dispatch is as
claimed for both implementations.  A pattern whose first symbol is `^`
is matched anchored at offset 0 with the `^` dropped; otherwise the
result is `true` exactly when the pattern matches at some suffix of the
text (offsets tried in order, the empty suffix included).  The rs side
additionally requires `^` not to occur at all (a non-initial `^`
panics). -/
theorem c7_amended :
    (∀ (rest t : List Char),
      book.match_regexp ('^' :: rest) t = book.match_here rest t) ∧
    (∀ (rest t : List Char),
      rs.match_regexp ('^' :: rest) t = rs.match_here (rs.tokenize rest) t) ∧
    (∀ (r t : List Char), asciiStr r → asciiStr t → r.head? ≠ some '^' →
      (book.match_regexp r t = some true ↔
        ∃ i, i ≤ t.length ∧ book.match_here r (t.drop i) = some true)) ∧
    (∀ (r t : List Char), asciiStr t → '^' ∉ r →
      (rs.match_regexp r t = some true ↔
        ∃ i, i ≤ t.length ∧ rs.match_here (rs.tokenize r) (t.drop i) = some true)) := by
  refine ⟨fun rest t => book.match_regexp.eq_1 t rest, ?_, ?_, ?_⟩
  · intro rest t
    unfold rs.match_regexp
    rw [rs.tokenize.eq_2]
    rfl
  · intro r t hr ht hhead
    have hne : ∀ rest_1 : List Char, r = '^' :: rest_1 → False := by
      intro r1 h
      rw [h] at hhead
      exact hhead rfl
    rw [book.match_regexp.eq_2 _ _ hne]
    exact loopAux_true_iff (fun t2 => book.match_here r t2) t ht
      (fun u hu => book.match_here_isSome r u hr hu)
  · intro r t ht hcar
    have hns : noStart (rs.tokenize r) := rs.tokenize_noStart r hcar
    have hhead : (rs.tokenize r).head? ≠ some rs.Token.start := by
      cases htk : rs.tokenize r with
      | nil => intro h; cases h
      | cons x rest =>
        intro h
        injection h with h1
        exact (noStart_cons (htk ▸ hns)).1 h1
    unfold rs.match_regexp
    rw [rs.is_match_eq_match_rest _ hhead t]
    exact match_rest_true_iff (rs.tokenize r) t ht hns

/-- C7, witness for the amended theorem's two conditional parts at
pattern `a`, text `ba`. -/
theorem c7_witness :
    (book.match_regexp ['a'] ['b', 'a'] = some true ↔
      ∃ i, i ≤ (['b', 'a'] : List Char).length ∧
        book.match_here ['a'] (List.drop i ['b', 'a']) = some true) ∧
    (rs.match_regexp ['a'] ['b', 'a'] = some true ↔
      ∃ i, i ≤ (['b', 'a'] : List Char).length ∧
        rs.match_here (rs.tokenize ['a']) (List.drop i ['b', 'a']) = some true) :=
  ⟨c7_amended.2.2.1 ['a'] ['b', 'a'] (by decide) (by decide) (by decide),
    c7_amended.2.2.2 ['a'] ['b', 'a'] (by decide) (by decide)⟩

/-- C8: both matchers terminate, with recursion depth linear in the size
of pattern plus text: the fuel-indexed interpreters, which spend one
unit of fuel per recursive call of the source procedures, already
stabilise to the total functions at fuel `2*(pattern + text) + 2` —
each call consumes a pattern symbol or a text character. -/
theorem c8_termination : ∀ (n : Nat) (r t : List Char),
    (2 * (r.length + t.length) + 2 < n →
      bookRegexpF n r t = some (book.match_regexp r t)) ∧
    (2 * ((rs.tokenize r).length + t.length) + 2 < n →
      rsRegexpF n r t = some (rs.match_regexp r t)) :=
  fun n r t => ⟨fun h => bookRegexpF_eq n r t h, fun h => rsRegexpF_eq n r t h⟩

/-- C8, witness at pattern `a*`, text `ab`, fuel 20. -/
theorem c8_witness :
    bookRegexpF 20 ['a', '*'] ['a', 'b'] = some (book.match_regexp ['a', '*'] ['a', 'b']) ∧
    rsRegexpF 20 ['a', '*'] ['a', 'b'] = some (rs.match_regexp ['a', '*'] ['a', 'b']) :=
  ⟨(c8_termination 20 ['a', '*'] ['a', 'b']).1 (by decide),
    (c8_termination 20 ['a', '*'] ['a', 'b']).2 (by decide)⟩

/-- C9: matching and tokenization are deterministic — both matchers and
the tokenizer are pure functions of their inputs in this embedding,
which faithfully reflects the absence of global or shared mutable state
in the source. -/
theorem c9_determinism : ∀ p t : List Char,
    book.match_regexp p t = book.match_regexp p t ∧
    rs.match_regexp p t = rs.match_regexp p t ∧
    rs.tokenize p = rs.tokenize p :=
  fun _ _ => ⟨rfl, rfl, rfl⟩

/-- C10: a leading `*` with no preceding atom is not an error.  The rs
tokenizer emits `Single (Literal *)` for a lone `*` and
`ZeroOrMore (Literal *)` for `**`; book matches a lone leading `*` as
the literal character `*` and `**` as zero-or-more `*`s. -/
theorem c10_star_literal :
    rs.tokenize ['*'] = [rs.Token.single (rs.Single.literal '*')] ∧
    (∀ (c : Char) (rest : List Char),
      rs.tokenize ('*' :: c :: rest) =
        if c = '*' then rs.Token.zeroOrMore (rs.Single.literal '*') :: rs.tokenize rest
        else rs.Token.single (rs.Single.literal '*') :: rs.tokenize (c :: rest)) ∧
    (∀ (rest t : List Char),
      book.match_here ('*' :: '*' :: rest) t = book.match_star '*' rest t) ∧
    (∀ (d : Char) (ts : List Char),
      book.match_here ['*'] (d :: ts) = if d = '*' then some true else some false) ∧
    (∀ (c : Char) (rest : List Char) (d : Char) (ts : List Char),
      book.match_here ('*' :: c :: rest) (d :: ts) =
        if c = '*' then book.match_star '*' rest (d :: ts)
        else if d = '*' then book.match_here (c :: rest) ts else some false) := by
  refine ⟨by decide, ?_, ?_, ?_, ?_⟩
  · intro c rest
    by_cases hst : c = '*'
    · subst hst
      rw [if_pos rfl, rs.tokenize.eq_4 '*' rest (fun h => by cases h) (fun h => by cases h)]
      rfl
    · rw [if_neg hst, rs.tokenize.eq_5 '*' (c :: rest) (fun h => by cases h)
        (fun h => by cases h) (fun r1 h => by injection h with h1 _; exact hst h1)]
      rfl
  · intro rest t
    rw [book.match_here.eq_2, if_pos (by decide)]
    rfl
  · intro d ts
    have hne : ∀ rest_1 : List Char, ([] : List Char) = '*' :: rest_1 → False := by
      intro r1 h; cases h
    have hsh : '*' = '$' → ([] : List Char) = [] → False := fun h _ => absurd h (by decide)
    rw [book.match_here.eq_5 '*' [] d ts hne hsh]
    by_cases hd : d = '*'
    · rw [if_pos (Or.inr hd.symm), if_pos ⟨by decide, by rw [hd]; decide⟩, if_pos hd,
        book.match_here.eq_1]
    · rw [if_neg ?_, if_neg hd]
      rintro (h | h)
      · exact absurd h (by decide)
      · exact hd h.symm
  · intro c rest d ts
    by_cases hst : c = '*'
    · subst hst
      rw [if_pos rfl, book.match_here.eq_2, if_pos (by decide)]
      rfl
    · have hne : ∀ rest_1 : List Char, c :: rest = '*' :: rest_1 → False := by
        intro r1 h; injection h with h1 _; exact hst h1
      have hsh : '*' = '$' → c :: rest = [] → False := fun h _ => absurd h (by decide)
      rw [if_neg hst, book.match_here.eq_5 '*' (c :: rest) d ts hne hsh]
      by_cases hd : d = '*'
      · rw [if_pos (Or.inr hd.symm), if_pos ⟨by decide, by rw [hd]; decide⟩, if_pos hd]
      · rw [if_neg ?_, if_neg hd]
        rintro (h | h)
        · exact absurd h (by decide)
        · exact hd h.symm

/-- C10, witness: concrete checks for the behaviours named in the
claim. -/
theorem c10_witness :
    rs.tokenize ['*', 'a'] =
      [rs.Token.single (rs.Single.literal '*'), rs.Token.single (rs.Single.literal 'a')] ∧
    rs.tokenize ['*', '*'] = [rs.Token.zeroOrMore (rs.Single.literal '*')] ∧
    book.match_here ['*'] ['*'] = some true := by
  have h2 := c10_star_literal.2.1 'a' []
  have h4 := c10_star_literal.2.2.2.1 '*' []
  refine ⟨?_, ?_, ?_⟩
  · rw [h2, if_neg (by decide)]
    decide
  · have h2b := c10_star_literal.2.1 '*' []
    rw [h2b, if_pos rfl]
    decide
  · rw [h4, if_pos rfl]
